import Mathlib

/-!
Shallow embedding of the wordle-solver core (src/rust/src/lib.rs).

Modelling conventions:
* Rust `String` words are modelled as `List Char`; all word accesses in the
  source go through `chars()`, so this is a direct translation.
* Rust `u8`/`u32` counters are modelled as `Nat`.  Every counter in the core
  is bounded by the word length (5) or the candidate-list length, far below
  any wrap-around, so no `% 2^w` reduction arises.
* Rust `f32` information gains are IDEALISED as exact rationals `ℚ`, purely
  to keep `calculate_best_guess` total: the source sums `f32` terms over a
  `HashMap` in nondeterministic iteration order, so a word's gain is not a
  single well-defined value of the program, and no theorem below relies on
  the numeric values of this idealisation (the proved `calculate_best_guess`
  facts only exercise the two shortcut branches, where the gain is never
  evaluated).
* Rust panics (`panic!`, `assert!`, `Option::unwrap` on `None`) are modelled
  by returning `none` from an `Option`-valued function.
* `HashSet<char>` is modelled as `Finset Char`; `HashMap<char, _>` keyed by
  the 26 `LETTERS` is modelled as a total function `Char → FrequencyPredicate`
  (the program only ever looks up uppercase letters, which the loader
  guarantees are among `LETTERS`).
-/

/-- `WORD_LENGTH` constant of the source. -/
def WORD_LENGTH : Nat := 5

/-- `NUM_GUESSES` constant of the source. -/
def NUM_GUESSES : Nat := 6

/-- The `LETTERS` constant: the 26 uppercase letters. -/
def LETTERS : List Char :=
  ['A', 'B', 'C', 'D', 'E', 'F', 'G', 'H', 'I', 'J', 'K', 'L', 'M', 'N', 'O',
   'P', 'Q', 'R', 'S', 'T', 'U', 'V', 'W', 'X', 'Y', 'Z']

/-- The `BEST_FIRST_GUESS` constant `"ROATE"`. -/
def BEST_FIRST_GUESS : List Char := ['R', 'O', 'A', 'T', 'E']

/-- `FrequencyPredicate`: optional min/max occurrence bounds for one letter. -/
structure FrequencyPredicate where
  min_occurrences : Option Nat
  max_occurrences : Option Nat
deriving DecidableEq, Repr

/-- `FrequencyPredicate::new`. -/
def FrequencyPredicate.new : FrequencyPredicate :=
  { min_occurrences := none, max_occurrences := none }

/-- `FrequencyPredicate::update_min`: keeps the larger of the old and new min. -/
def FrequencyPredicate.update_min (p : FrequencyPredicate) (new_min : Nat) :
    FrequencyPredicate :=
  match p.min_occurrences with
  | none => { p with min_occurrences := some new_min }
  | some prev_min => { p with min_occurrences := some (max prev_min new_min) }

/-- `FrequencyPredicate::update_max`.  Faithful to the source, which matches on
`self.min_occurrences` (not `max_occurrences`) to decide both branches. -/
def FrequencyPredicate.update_max (p : FrequencyPredicate) (new_max : Nat) :
    FrequencyPredicate :=
  match p.min_occurrences with
  | none => { p with max_occurrences := some new_max }
  | some prev_max => { p with max_occurrences := some (min prev_max new_max) }

/-- `FrequencyPredicate::is_noop`. -/
def FrequencyPredicate.is_noop (p : FrequencyPredicate) : Bool :=
  p.min_occurrences.isNone && p.max_occurrences.isNone

/-- `FrequencyPredicate::matches`. -/
def FrequencyPredicate.matches (p : FrequencyPredicate) (num_occurrences : Nat) :
    Bool :=
  (match p.min_occurrences with
   | some mn => decide (mn ≤ num_occurrences)
   | none => true) &&
  (match p.max_occurrences with
   | some mx => decide (num_occurrences ≤ mx)
   | none => true)

/-- `LetterOutcome`: per-letter classification. -/
inductive LetterOutcome where
  | Correct
  | Present
  | Absent
deriving DecidableEq, Repr

/-- `LetterOutcome::parse`; the `panic!` arm on an invalid character is
modelled by `none`. -/
def LetterOutcome.parse (outcome_char : Char) : Option LetterOutcome :=
  match outcome_char with
  | 'G' => some LetterOutcome.Correct
  | 'Y' => some LetterOutcome.Present
  | 'B' => some LetterOutcome.Absent
  | _ => none

/-- `GuessOutcome`: the per-letter classifications of one guess. -/
structure GuessOutcome where
  letters : List (Char × LetterOutcome)
deriving DecidableEq, Repr

/-- The lazy `zip` of `word.chars()` with the parsed outcome characters in
`GuessOutcome::parse`: it stops at the shorter list, and an invalid outcome
character inside the zipped range panics (modelled by `none`). -/
def parseZip : List Char → List Char → Option (List (Char × LetterOutcome))
  | w :: ws, c :: cs =>
    match LetterOutcome.parse c with
    | some o => (parseZip ws cs).map (fun rest => (w, o) :: rest)
    | none => none
  | _, _ => some []

/-- `GuessOutcome::parse`. -/
def GuessOutcome.parse (word : List Char) (outcome_str : List Char) :
    Option GuessOutcome :=
  (parseZip word outcome_str).map GuessOutcome.mk

/-- `GuessOutcome::letter_outcomes`. -/
def GuessOutcome.letter_outcomes (g : GuessOutcome) : List LetterOutcome :=
  g.letters.map Prod.snd

/-- `GuessOutcome::is_win`. -/
def GuessOutcome.is_win (g : GuessOutcome) : Bool :=
  g.letters.all (fun p => decide (p.2 = LetterOutcome.Correct))

/-- Pass 1 of `evaluate_guess`: walk guess and solution in lockstep together
with the `results` and `accounted` vectors, marking exact matches.  The
source indexes `results[i]` / `accounted[i]` with the position `i` of the
`zip(guess, solution)` enumeration; walking all four lists in lockstep is the
same access pattern (each index is visited exactly once, in order), faithful
for the `WORD_LENGTH`-letter inputs the program constructs. -/
def pass1 : List Char → List Char → List LetterOutcome → List Bool →
    List LetterOutcome × List Bool
  | g :: gs, s :: ss, r :: rs, a :: bs =>
    let rest := pass1 gs ss rs bs
    if g = s ∧ a = false then
      (LetterOutcome.Correct :: rest.1, true :: rest.2)
    else
      (r :: rest.1, a :: rest.2)
  | _, _, rs, bs => (rs, bs)

/-- The inner loop of pass 2 of `evaluate_guess`: scan `accounted` and the
solution letters left-to-right; the first unaccounted solution position whose
letter equals the guess letter is marked accounted (`some` of the updated
vector, modelling the in-place write plus `break`); if the scan finishes
without a match the result is `none` and `accounted` is unchanged. -/
def scanSolution (guess_letter : Char) : List Bool → List Char → Option (List Bool)
  | a :: bs, s :: ss =>
    if a = true then (scanSolution guess_letter bs ss).map (fun t => a :: t)
    else if guess_letter = s then some (true :: bs)
    else (scanSolution guess_letter bs ss).map (fun t => a :: t)
  | _, _ => none

/-- Pass 2 of `evaluate_guess`: walk `results` and the guess letters in
lockstep (`results.iter_mut().zip(guess.chars())`); positions already
`Correct` are skipped, otherwise a successful `scanSolution` yields
`Present`.  Results beyond the guess length are returned unchanged, as in the
source vector. -/
def pass2 : List LetterOutcome → List Char → List Bool → List Char →
    List LetterOutcome
  | r :: rs, g :: gs, accounted, solution =>
    if r = LetterOutcome.Correct then
      r :: pass2 rs gs accounted solution
    else
      match scanSolution g accounted solution with
      | some accounted2 => LetterOutcome.Present :: pass2 rs gs accounted2 solution
      | none => r :: pass2 rs gs accounted solution
  | rs, [], _, _ => rs
  | [], _ :: _, _, _ => []

/-- `evaluate_guess`: the `results` vector is (faithfully) initialised with
`NUM_GUESSES = 6` entries and `accounted` with `WORD_LENGTH = 5` entries, as
in the source. -/
def evaluate_guess (guess solution : List Char) : GuessOutcome :=
  let init := pass1 guess solution
    (List.replicate NUM_GUESSES LetterOutcome.Absent)
    (List.replicate WORD_LENGTH false)
  let results := pass2 init.1 guess init.2 solution
  { letters := guess.zip results }

/-- The input-handling core of `prompt_guess`, as a function of the trimmed
input line: if every character is `B`, `Y` or `G` the outcome is parsed
against the guess, otherwise the function panics (`none`).  The surrounding
stdin/stdout glue is out of scope. -/
def prompt_guess_outcome (guess : List Char) (outcome_str : List Char) :
    Option GuessOutcome :=
  if outcome_str.all (fun c => c = 'B' || c = 'Y' || c = 'G') then
    GuessOutcome.parse guess outcome_str
  else
    none

/-- `GameState`.  `possible_letters` is the fixed array of `WORD_LENGTH`
per-position allowed-letter sets; `letter_frequencies` models the `HashMap`
keyed by the 26 `LETTERS` as a total function. -/
structure GameState where
  dictionary : List (List Char)
  possible_solutions : List (List Char)
  is_initial_state : Bool
  letter_frequencies : Char → FrequencyPredicate
  possible_letters : List (Finset Char)

/-- `GameState::new`. -/
def GameState.new (dictionary possible_solutions : List (List Char)) : GameState :=
  { dictionary := dictionary
    possible_solutions := possible_solutions
    is_initial_state := true
    letter_frequencies := fun _ => FrequencyPredicate.new
    possible_letters := List.replicate WORD_LENGTH LETTERS.toFinset }

/-- `GameState::calculate_information_gain`, IDEALISED over `ℚ`.  The source
groups the candidates by classification signature in a `HashMap` and sums,
over the distinct signatures, the `f32` terms `(total - n) * (n / total)`
where `n` is the group size, in the map's nondeterministic iteration order;
with per-operation rounding that sum is order-dependent, so this exact
rational version (with `List.dedup` enumerating the distinct signatures) is
an idealisation, not a faithful model.  It exists only so that
`calculate_best_guess` is total; no theorem in this file depends on the
numeric values it produces. -/
def GameState.calculate_information_gain (st : GameState) (word : List Char)
    (potential_solutions : List (List Char)) : ℚ :=
  let sigs := potential_solutions.map
    (fun sol => (evaluate_guess word sol).letter_outcomes)
  let total : ℚ := (potential_solutions.length : ℚ)
  (sigs.dedup.map (fun sig =>
    ((total - (sigs.count sig : ℚ)) * ((sigs.count sig : ℚ) / total)))).sum

/-- The scoring loop of `calculate_best_guess`: fold over the dictionary
carrying `best_word` and `max_gain`, replacing them exactly when the gain is
strictly greater than the recorded maximum (or none is recorded yet). -/
def bestLoop (f : List Char → ℚ) :
    List (List Char) → Option (List Char) → Option ℚ → Option (List Char)
  | [], best_word, _ => best_word
  | word :: rest, best_word, max_gain =>
    let gain := f word
    let new_best : Bool :=
      match max_gain with
      | none => true
      | some mg => decide (mg < gain)
    if new_best then bestLoop f rest (some word) (some gain)
    else bestLoop f rest best_word max_gain

/-- `GameState::calculate_best_guess`.  `none` models the panic of
`best_word.unwrap()` on an empty dictionary; `headD` models the index
`possible_solutions[0]` guarded by the length-1 check. -/
def GameState.calculate_best_guess (st : GameState) : Option (List Char) :=
  if st.is_initial_state then some BEST_FIRST_GUESS
  else if st.possible_solutions.length = 1 then
    some (st.possible_solutions.headD [])
  else
    bestLoop (fun w => st.calculate_information_gain w st.possible_solutions)
      st.dictionary none none

/-- One `entry(letter).and_modify(push).or_insert(vec![entry])` step of the
grouping in `_update_state`: append the entry to the first group with this
letter, or start a new group at the end. -/
def addToGroups (letter : Char) (entry : Nat × LetterOutcome) :
    List (Char × List (Nat × LetterOutcome)) →
    List (Char × List (Nat × LetterOutcome))
  | [] => [(letter, [entry])]
  | (l, v) :: rest =>
    if l = letter then (l, v ++ [entry]) :: rest
    else (l, v) :: addToGroups letter entry rest

/-- The `info_by_letter` map of `_update_state`: group the enumerated
`(position, outcome)` pairs of the guess by letter, keeping each letter's
occurrences in position order.  The source then iterates the `HashMap` in an
arbitrary order; distinct letters touch disjoint positions and disjoint
frequency entries, so the final state does not depend on that order, and the
groups are modelled in first-occurrence order. -/
def info_by_letter (letters : List (Char × LetterOutcome)) :
    List (Char × List (Nat × LetterOutcome)) :=
  letters.enum.foldl (fun groups p => addToGroups p.2.1 (p.1, p.2.2) groups) []

/-- Overwrite one letter's frequency predicate (a `HashMap` insert at an
existing key). -/
def setFreq (st : GameState) (letter : Char) (p : FrequencyPredicate) : GameState :=
  { st with letter_frequencies :=
      fun c => if c = letter then p else st.letter_frequencies c }

/-- One iteration of the per-letter occurrence loop of `_update_state`,
threading `(state, has_absent, non_absent_count)`.  The `Correct` arm's
`assert!(possible_letters.contains(&letter))` is modelled by returning
`none` when it fails.  After the match, the source tightens the letter's min
when `non_absent_count > 0` and its max when `has_absent` is set. -/
def processOccurrence (letter : Char) (acc : GameState × Bool × Nat)
    (occ : Nat × LetterOutcome) : Option (GameState × Bool × Nat) :=
  let st := acc.1
  let has_absent := acc.2.1
  let non_absent_count := acc.2.2
  let i := occ.1
  let step : Option (GameState × Bool × Nat) :=
    match occ.2 with
    | LetterOutcome.Correct =>
      if letter ∈ st.possible_letters.getD i ∅ then
        some ({ st with possible_letters := st.possible_letters.set i {letter} },
              has_absent, non_absent_count + 1)
      else
        none
    | LetterOutcome.Present =>
      some ({ st with possible_letters :=
                st.possible_letters.set i ((st.possible_letters.getD i ∅).erase letter) },
            has_absent, non_absent_count + 1)
    | LetterOutcome.Absent =>
      some ({ st with possible_letters :=
                st.possible_letters.set i ((st.possible_letters.getD i ∅).erase letter) },
            true, non_absent_count)
  step.map (fun acc2 =>
    let st2 := if 0 < acc2.2.2 then
        setFreq acc2.1 letter ((acc2.1.letter_frequencies letter).update_min acc2.2.2)
      else acc2.1
    let st3 := if acc2.2.1 then
        setFreq st2 letter ((st2.letter_frequencies letter).update_max acc2.2.2)
      else st2
    (st3, acc2.2.1, acc2.2.2))

/-- The per-letter occurrence loop of `_update_state`. -/
def processOccs (letter : Char) : List (Nat × LetterOutcome) →
    GameState × Bool × Nat → Option (GameState × Bool × Nat)
  | [], acc => some acc
  | occ :: rest, acc =>
    match processOccurrence letter acc occ with
    | some acc2 => processOccs letter rest acc2
    | none => none

/-- The outer per-letter loop of `_update_state`: each letter's occurrences
are processed with fresh `has_absent = false`, `non_absent_count = 0`. -/
def processGroups : List (Char × List (Nat × LetterOutcome)) → GameState →
    Option GameState
  | [], st => some st
  | (l, occs) :: rest, st =>
    match processOccs l occs (st, false, 0) with
    | some acc => processGroups rest acc.1
    | none => none

/-- `GameState::_update_state`. -/
def GameState._update_state (st : GameState) (guess : GuessOutcome) :
    Option GameState :=
  processGroups (info_by_letter guess.letters) { st with is_initial_state := false }

/-- The first loop of `_word_fits`: check that each letter of the word is
allowed at its position (the letter-frequency counting of that loop is the
plain occurrence count, written with `List.count` below). -/
def checkPositions (possible_letters : List (Finset Char)) :
    Nat → List Char → Bool
  | _, [] => true
  | i, c :: cs =>
    decide (c ∈ possible_letters.getD i ∅) && checkPositions possible_letters (i + 1) cs

/-- `GameState::_word_fits`.  The second loop iterates the frequency map's
entries, i.e. exactly the 26 `LETTERS`; a letter absent from the word has
occurrence count 0 (`.or(Some(&0))` in the source). -/
def GameState._word_fits (st : GameState) (word : List Char) : Bool :=
  checkPositions st.possible_letters 0 word &&
  LETTERS.all (fun letter =>
    (st.letter_frequencies letter).is_noop ||
    (st.letter_frequencies letter).matches (word.count letter))

/-- `GameState::_update_potential_solutions`: `retain` keeps, in order,
exactly the words that fit. -/
def GameState._update_potential_solutions (st : GameState) : GameState :=
  { st with possible_solutions :=
      st.possible_solutions.filter (fun w => st._word_fits w) }

/-- `GameState::update`. -/
def GameState.update (st : GameState) (guess : GuessOutcome) : Option GameState :=
  (st._update_state guess).map (fun st1 => st1._update_potential_solutions)

/-- Total description of the `B`/`Y`/`G` letter coding; used only to state
theorems about inputs already known to use only those three characters. -/
def parseBYG (c : Char) : LetterOutcome :=
  if c = 'G' then LetterOutcome.Correct
  else if c = 'Y' then LetterOutcome.Present
  else LetterOutcome.Absent

/-- A concrete non-initial state with a single remaining candidate. -/
def demoSingle : GameState :=
  { GameState.new [['A', 'B', 'A', 'T', 'E']] [['A', 'B', 'A', 'T', 'E']] with
      is_initial_state := false }

/-- C1: the claim that `max_occurrences` never increases once set is refuted
by evaluating the code: `update_max` matches on `min_occurrences` instead of
`max_occurrences` (its binder is even named `prev_max`), so while the min is
unset a second `update_max` simply overwrites the stored max, here loosening
it from 1 to 3. -/
theorem update_max_loosens_bound_eval :
    (FrequencyPredicate.new.update_max 1).max_occurrences = some 1 ∧
    ((FrequencyPredicate.new.update_max 1).update_max 3).max_occurrences = some 3 := by
  decide

/-- C2 counterexample: on a freshly constructed (initial) state whose single
candidate is `"ABATE"`, `calculate_best_guess` returns the fixed opening word
`"ROATE"`, not the single candidate: the `is_initial_state` shortcut is
checked first. -/
theorem best_guess_single_candidate_cex :
    (GameState.new [['A', 'B', 'A', 'T', 'E']] [['A', 'B', 'A', 'T', 'E']]).possible_solutions
        = [['A', 'B', 'A', 'T', 'E']] ∧
    (GameState.new [['A', 'B', 'A', 'T', 'E']] [['A', 'B', 'A', 'T', 'E']]).calculate_best_guess
        = some ['R', 'O', 'A', 'T', 'E'] ∧
    (['R', 'O', 'A', 'T', 'E'] : List Char) ≠ ['A', 'B', 'A', 'T', 'E'] :=
  ⟨rfl, rfl, by decide⟩

/-- C2 (amended): for every NON-INITIAL `GameState` whose
`possible_solutions` list has exactly one entry, `calculate_best_guess`
returns that entry. -/
theorem best_guess_single_candidate (st : GameState) (w : List Char)
    (h1 : st.is_initial_state = false) (h2 : st.possible_solutions = [w]) :
    st.calculate_best_guess = some w := by
  simp [GameState.calculate_best_guess, h1, h2]

/-- C2 witness: the amended theorem applied to a concrete non-initial state. -/
theorem best_guess_single_candidate_witness :
    demoSingle.calculate_best_guess = some ['A', 'B', 'A', 'T', 'E'] :=
  best_guess_single_candidate demoSingle ['A', 'B', 'A', 'T', 'E'] rfl rfl

/-- C10: `is_win` is vacuously true on an outcome with an empty letters list,
and the empty outcome string passes the character-set check of `prompt_guess`
and parses (against any guess) to exactly that empty outcome, which is then
reported as a win. -/
theorem empty_outcome_reported_as_win (g : List Char) :
    prompt_guess_outcome g [] = some { letters := [] } ∧
    (GuessOutcome.mk []).is_win = true := by
  refine ⟨?_, rfl⟩
  cases g <;> rfl

/-- C10 witness: the theorem at a concrete five-letter guess. -/
theorem empty_outcome_reported_as_win_witness :
    prompt_guess_outcome ['R', 'O', 'A', 'T', 'E'] [] = some { letters := [] } ∧
    (GuessOutcome.mk []).is_win = true :=
  empty_outcome_reported_as_win ['R', 'O', 'A', 'T', 'E']

/-- C4 counterexample: the input string `"GGG"` has length 3 ≠ `WORD_LENGTH`,
yet because every character is in `{B, Y, G}` the turn does NOT fail: a
(truncated) outcome is produced.  The source validates only the character
set, never the length. -/
theorem prompt_guess_length_unchecked_cex :
    (['G', 'G', 'G'] : List Char).length ≠ WORD_LENGTH ∧
    (∀ c ∈ (['G', 'G', 'G'] : List Char), c = 'B' ∨ c = 'Y' ∨ c = 'G') ∧
    prompt_guess_outcome ['H', 'E', 'L', 'L', 'O'] ['G', 'G', 'G'] =
      some { letters := [('H', LetterOutcome.Correct), ('E', LetterOutcome.Correct),
                         ('L', LetterOutcome.Correct)] } := by
  refine ⟨by decide, by decide, rfl⟩

/-- `GuessOutcome::parse` on an input of valid outcome characters succeeds and
zips the guess letters with the decoded classifications. -/
theorem parseZip_of_valid : ∀ (g s : List Char),
    (∀ c ∈ s, c = 'B' ∨ c = 'Y' ∨ c = 'G') →
    parseZip g s = some (g.zipWith (fun w c => (w, parseBYG c)) s)
  | [], s, _ => by cases s <;> rfl
  | _ :: _, [], _ => rfl
  | w :: ws, c :: cs, h => by
    have hc := h c (List.mem_cons_self _ _)
    have ih := parseZip_of_valid ws cs (fun x hx => h x (List.mem_cons_of_mem _ hx))
    rcases hc with hc | hc | hc <;> subst hc <;>
      simp [parseZip, LetterOutcome.parse, parseBYG, ih]

/-- C4 (amended): obtaining the turn's outcome fails fatally exactly when the
input contains a character outside `{B, Y, G}`; the input's LENGTH is not
validated, and every all-`{B,Y,G}` input (of any length) produces an outcome
whose classifications are aligned positionally to the guess letters,
truncated to the shorter of guess and input. -/
theorem prompt_guess_charset_decides_fatality (g s : List Char) :
    (prompt_guess_outcome g s = none ↔
      ¬ (∀ c ∈ s, c = 'B' ∨ c = 'Y' ∨ c = 'G')) ∧
    ((∀ c ∈ s, c = 'B' ∨ c = 'Y' ∨ c = 'G') →
      prompt_guess_outcome g s =
        some { letters := g.zipWith (fun w c => (w, parseBYG c)) s }) := by
  by_cases hv : ∀ c ∈ s, c = 'B' ∨ c = 'Y' ∨ c = 'G'
  · have hall : (s.all (fun c => c = 'B' || c = 'Y' || c = 'G')) = true := by
      simp only [List.all_eq_true, Bool.or_eq_true, decide_eq_true_eq]
      intro c hc
      rcases hv c hc with h | h | h
      · exact Or.inl (Or.inl h)
      · exact Or.inl (Or.inr h)
      · exact Or.inr h
    have hsome : prompt_guess_outcome g s =
        some { letters := g.zipWith (fun w c => (w, parseBYG c)) s } := by
      unfold prompt_guess_outcome
      rw [if_pos hall]
      unfold GuessOutcome.parse
      rw [parseZip_of_valid g s hv]
      rfl
    refine ⟨iff_of_false (by rw [hsome]; exact fun h => Option.noConfusion h)
      (not_not_intro hv), fun _ => hsome⟩
  · have hall : (s.all (fun c => c = 'B' || c = 'Y' || c = 'G')) = false := by
      by_contra hne
      apply hv
      have ht : (s.all (fun c => c = 'B' || c = 'Y' || c = 'G')) = true := by
        cases hb : s.all (fun c => c = 'B' || c = 'Y' || c = 'G')
        · exact absurd hb hne
        · rfl
      intro c hc
      have hx := List.all_eq_true.mp ht c hc
      simp only [Bool.or_eq_true, decide_eq_true_eq] at hx
      rcases hx with (h | h) | h
      · exact Or.inl h
      · exact Or.inr (Or.inl h)
      · exact Or.inr (Or.inr h)
    have hnone : prompt_guess_outcome g s = none := by
      unfold prompt_guess_outcome
      rw [if_neg (by simp [hall])]
    exact ⟨iff_of_true hnone hv, fun h => absurd h hv⟩

/-- C4 witness: a valid two-character input against a two-letter guess. -/
theorem prompt_guess_charset_decides_fatality_witness :
    prompt_guess_outcome ['A', 'B'] ['G', 'Y'] =
      some { letters := [('A', LetterOutcome.Correct), ('B', LetterOutcome.Present)] } :=
  (prompt_guess_charset_decides_fatality ['A', 'B'] ['G', 'Y']).2 (by decide)

/-- Characterisation of the selection fold in isolation, for an arbitrary
exact-valued gain function `f`: starting from a recorded best word `b` with
recorded gain `f b`, the loop returns the earliest element of `b :: l`
attaining the maximum of `f`.  This says nothing about the source's actual
`f32` gains (see `GameState.calculate_information_gain`); it is kept as a
development lemma about the fold structure only. -/
theorem bestLoop_spec (f : List Char → ℚ) :
    ∀ (l : List (List Char)) (b : List Char),
      ∃ w l1 l2, bestLoop f l (some b) (some (f b)) = some w ∧
        b :: l = l1 ++ w :: l2 ∧
        (∀ u ∈ l1, f u < f w) ∧ (∀ u ∈ l2, f u ≤ f w)
  | [], b => ⟨b, [], [], rfl, rfl, by simp, by simp⟩
  | x :: xs, b => by
    by_cases hx : f b < f x
    · have hloop : bestLoop f (x :: xs) (some b) (some (f b)) =
          bestLoop f xs (some x) (some (f x)) := by
        simp [bestLoop, hx]
      obtain ⟨w, l1, l2, hw, hdec, hpre, hpost⟩ := bestLoop_spec f xs x
      have hxw : f x ≤ f w := by
        rcases l1 with _ | ⟨y, l1'⟩
        · simp only [List.nil_append] at hdec
          rw [List.cons.injEq] at hdec
          rw [hdec.1]
        · simp only [List.cons_append, List.cons.injEq] at hdec
          have hy := hpre y (List.mem_cons_self _ _)
          rw [← hdec.1] at hy
          exact le_of_lt hy
      refine ⟨w, b :: l1, l2, hloop.trans hw, ?_, ?_, hpost⟩
      · rw [List.cons_append, ← hdec]
      · intro u hu
        rcases List.mem_cons.mp hu with hu | hu
        · rw [hu]; exact lt_of_lt_of_le hx hxw
        · exact hpre u hu
    · have hloop : bestLoop f (x :: xs) (some b) (some (f b)) =
          bestLoop f xs (some b) (some (f b)) := by
        simp [bestLoop, hx]
      obtain ⟨w, l1, l2, hw, hdec, hpre, hpost⟩ := bestLoop_spec f xs b
      have hxb : f x ≤ f b := le_of_not_lt hx
      rcases l1 with _ | ⟨y, l1'⟩
      · simp only [List.nil_append, List.cons.injEq] at hdec
        refine ⟨w, [], x :: xs, hloop.trans hw, by rw [List.nil_append, hdec.1], by simp, ?_⟩
        intro u hu
        rcases List.mem_cons.mp hu with hu | hu
        · rw [hu, ← hdec.1]; exact hxb
        · rw [hdec.2] at hu; exact hpost u hu
      · simp only [List.cons_append, List.cons.injEq] at hdec
        rw [← hdec.1] at hpre
        have hbw : f b < f w := hpre b (List.mem_cons_self _ _)
        refine ⟨w, b :: x :: l1', l2, hloop.trans hw, ?_, ?_, hpost⟩
        · rw [hdec.2]; simp
        · intro u hu
          rcases List.mem_cons.mp hu with hu | hu
          · rw [hu]; exact hbw
          · rcases List.mem_cons.mp hu with hu | hu
            · rw [hu]; exact lt_of_le_of_lt hxb hbw
            · exact hpre u (List.mem_cons_of_mem _ hu)

/-- A concrete non-initial state with two candidates. -/
def demoPair : GameState :=
  { GameState.new [['A', 'B', 'A', 'T', 'E'], ['B', 'E', 'A', 'T', 'S']]
      [['A', 'B', 'A', 'T', 'E'], ['B', 'E', 'A', 'T', 'S']] with
      is_initial_state := false }

/-- `FrequencyPredicate.matches` holds exactly when the count satisfies the
min bound (if set) and the max bound (if set). -/
theorem matches_iff (p : FrequencyPredicate) (n : Nat) :
    p.matches n = true ↔
      (∀ mn, p.min_occurrences = some mn → mn ≤ n) ∧
      (∀ mx, p.max_occurrences = some mx → n ≤ mx) := by
  rcases p with ⟨mn?, mx?⟩
  rcases mn? with _ | mn <;> rcases mx? with _ | mx <;>
    simp [FrequencyPredicate.matches]

/-- The position loop of `_word_fits` succeeds exactly when every letter of
the word is allowed at its (offset) position. -/
theorem checkPositions_iff (pl : List (Finset Char)) :
    ∀ (w : List Char) (i : Nat),
      checkPositions pl i w = true ↔
        ∀ j (h : j < w.length), w.get ⟨j, h⟩ ∈ pl.getD (i + j) ∅
  | [], i => by simp [checkPositions]
  | c :: cs, i => by
    simp only [checkPositions, Bool.and_eq_true, decide_eq_true_eq,
      checkPositions_iff pl cs (i + 1)]
    constructor
    · rintro ⟨h0, hrest⟩ j hj
      cases j with
      | zero => simpa using h0
      | succ j' =>
        have hx := hrest j' (by simpa using hj)
        have harith : i + 1 + j' = i + (j' + 1) := by omega
        rw [harith] at hx
        simpa using hx
    · intro h
      refine ⟨by simpa using h 0 (by simp), fun j hj => ?_⟩
      have hx := h (j + 1) (by simpa using hj)
      have harith : i + (j + 1) = i + 1 + j := by omega
      rw [harith] at hx
      simpa using hx

/-- C6: the candidate filter retains a `WORD_LENGTH`-letter word iff (a)
every letter is allowed at its position and (b) for every letter whose
frequency predicate is not a no-op, the word's occurrence count of that
letter satisfies the predicate's min and max bounds.  The two extra
hypotheses state the representation invariants of a real `GameState` (the
positions array has `WORD_LENGTH` entries; the frequency map only carries
predicates for the 26 `LETTERS`). -/
theorem word_fits_iff (st : GameState) (w : List Char)
    (hw : w.length = WORD_LENGTH)
    (hpl : st.possible_letters.length = WORD_LENGTH)
    (hfreq : ∀ c, c ∉ LETTERS → (st.letter_frequencies c).is_noop = true) :
    st._word_fits w = true ↔
      ((∀ j (h1 : j < w.length) (h2 : j < st.possible_letters.length),
          w.get ⟨j, h1⟩ ∈ st.possible_letters.get ⟨j, h2⟩) ∧
       (∀ l : Char, (st.letter_frequencies l).is_noop = false →
          (∀ mn, (st.letter_frequencies l).min_occurrences = some mn →
            mn ≤ w.count l) ∧
          (∀ mx, (st.letter_frequencies l).max_occurrences = some mx →
            w.count l ≤ mx))) := by
  unfold GameState._word_fits
  rw [Bool.and_eq_true]
  have hgetD : ∀ j (h2 : j < st.possible_letters.length),
      st.possible_letters.getD j ∅ = st.possible_letters.get ⟨j, h2⟩ := by
    intro j h2
    rw [List.getD_eq_get?, List.get?_eq_get h2]
    rfl
  constructor
  · rintro ⟨hpos, hall⟩
    constructor
    · intro j h1 h2
      have hx := (checkPositions_iff st.possible_letters w 0).mp hpos j h1
      rw [Nat.zero_add, hgetD j h2] at hx
      exact hx
    · intro l hnoop
      by_cases hmem : l ∈ LETTERS
      · have hx := List.all_eq_true.mp hall l hmem
        rw [Bool.or_eq_true] at hx
        rcases hx with hx | hx
        · rw [hnoop] at hx
          exact absurd hx (by simp)
        · exact (matches_iff _ _).mp hx
      · rw [hfreq l hmem] at hnoop
        exact absurd hnoop (by simp)
  · rintro ⟨hpos, hbounds⟩
    constructor
    · rw [checkPositions_iff st.possible_letters w 0]
      intro j h1
      have h2 : j < st.possible_letters.length := by omega
      rw [Nat.zero_add, hgetD j h2]
      exact hpos j h1 h2
    · rw [List.all_eq_true]
      intro l _
      rw [Bool.or_eq_true]
      cases hnoop : (st.letter_frequencies l).is_noop
      · exact Or.inr ((matches_iff _ _).mpr (hbounds l hnoop))
      · exact Or.inl rfl

/-- C6 witness: the filter characterisation at a concrete fresh state and a
concrete five-letter word. -/
theorem word_fits_iff_witness :
    (GameState.new [] [])._word_fits ['A', 'B', 'A', 'T', 'E'] = true ↔
      ((∀ j (h1 : j < (['A', 'B', 'A', 'T', 'E'] : List Char).length)
          (h2 : j < (GameState.new [] []).possible_letters.length),
          (['A', 'B', 'A', 'T', 'E'] : List Char).get ⟨j, h1⟩ ∈
            (GameState.new [] []).possible_letters.get ⟨j, h2⟩) ∧
       (∀ l : Char, ((GameState.new [] []).letter_frequencies l).is_noop = false →
          (∀ mn, ((GameState.new [] []).letter_frequencies l).min_occurrences = some mn →
            mn ≤ (['A', 'B', 'A', 'T', 'E'] : List Char).count l) ∧
          (∀ mx, ((GameState.new [] []).letter_frequencies l).max_occurrences = some mx →
            (['A', 'B', 'A', 'T', 'E'] : List Char).count l ≤ mx))) :=
  word_fits_iff (GameState.new [] []) ['A', 'B', 'A', 'T', 'E'] rfl rfl
    (fun _ _ => rfl)

/-- Setting one slot leaves `getD` at that slot with the new value (in range). -/
theorem getD_set_self (v : Finset Char) :
    ∀ (L : List (Finset Char)) (i : Nat), i < L.length →
      (L.set i v).getD i ∅ = v
  | [], i, h => by simp at h
  | _ :: cs, 0, _ => rfl
  | _ :: cs, i + 1, h => getD_set_self v cs i (by simpa using h)

/-- Setting one slot leaves `getD` at every other slot unchanged. -/
theorem getD_set_ne (v : Finset Char) :
    ∀ (L : List (Finset Char)) (i j : Nat), j ≠ i →
      (L.set i v).getD j ∅ = L.getD j ∅
  | [], _, _, _ => rfl
  | _ :: cs, 0, 0, h => absurd rfl h
  | _ :: cs, 0, j + 1, _ => rfl
  | _ :: cs, i + 1, 0, _ => rfl
  | _ :: cs, i + 1, j + 1, h =>
    getD_set_ne v cs i j (fun he => h (by rw [he]))

/-- `set` beyond the end of the list is a no-op. -/
theorem set_oob (v : Finset Char) :
    ∀ (L : List (Finset Char)) (i : Nat), L.length ≤ i → L.set i v = L
  | [], _, _ => rfl
  | _ :: cs, 0, h => by simp at h
  | _ :: cs, i + 1, h => by
    show _ :: cs.set i v = _
    rw [set_oob v cs i (by simpa using h)]

/-- `setFreq` only changes the frequency map. -/
theorem setFreq_fields (st : GameState) (l : Char) (p : FrequencyPredicate) :
    (setFreq st l p).possible_solutions = st.possible_solutions ∧
    (setFreq st l p).dictionary = st.dictionary ∧
    (setFreq st l p).possible_letters = st.possible_letters :=
  ⟨rfl, rfl, rfl⟩

/-- One occurrence step of `_update_state` never grows a position's
allowed-letter set and never touches the candidate list or dictionary. -/
theorem processOccurrence_shrink (letter : Char) (acc acc2 : GameState × Bool × Nat)
    (occ : Nat × LetterOutcome)
    (h : processOccurrence letter acc occ = some acc2) :
    acc2.1.possible_solutions = acc.1.possible_solutions ∧
    acc2.1.dictionary = acc.1.dictionary ∧
    acc2.1.possible_letters.length = acc.1.possible_letters.length ∧
    ∀ j, acc2.1.possible_letters.getD j ∅ ⊆ acc.1.possible_letters.getD j ∅ := by
  unfold processOccurrence at h
  rcases Option.map_eq_some'.mp h with ⟨a, ha, hfa⟩
  have hfields : acc2.1.possible_solutions = a.1.possible_solutions ∧
      acc2.1.dictionary = a.1.dictionary ∧
      acc2.1.possible_letters = a.1.possible_letters := by
    rw [← hfa]
    dsimp only
    split_ifs <;> exact ⟨rfl, rfl, rfl⟩
  rcases hfields with ⟨hs, hd, hp⟩
  rw [hs, hd, hp]
  rcases occ with ⟨i, o⟩
  cases o with
  | Correct =>
    dsimp only at ha
    split_ifs at ha with hmem
    · rcases Option.some.inj ha with rfl
      refine ⟨rfl, rfl, by simp, ?_⟩
      intro j x hx
      by_cases hj : j = i
      · subst hj
        have hlt : j < acc.1.possible_letters.length := by
          by_contra hge
          rw [List.getD_eq_default _ _ (by omega)] at hmem
          exact absurd hmem (Finset.not_mem_empty _)
        rw [getD_set_self _ _ _ hlt] at hx
        rw [Finset.mem_singleton.mp hx]
        exact hmem
      · rw [getD_set_ne _ _ _ _ hj] at hx
        exact hx
  | Present =>
    dsimp only at ha
    rcases Option.some.inj ha with rfl
    refine ⟨rfl, rfl, by simp, ?_⟩
    intro j x hx
    by_cases hj : j = i
    · subst hj
      by_cases hlt : j < acc.1.possible_letters.length
      · rw [getD_set_self _ _ _ hlt] at hx
        exact Finset.erase_subset _ _ hx
      · rw [set_oob _ _ _ (by omega)] at hx
        exact hx
    · rw [getD_set_ne _ _ _ _ hj] at hx
      exact hx
  | Absent =>
    dsimp only at ha
    rcases Option.some.inj ha with rfl
    refine ⟨rfl, rfl, by simp, ?_⟩
    intro j x hx
    by_cases hj : j = i
    · subst hj
      by_cases hlt : j < acc.1.possible_letters.length
      · rw [getD_set_self _ _ _ hlt] at hx
        exact Finset.erase_subset _ _ hx
      · rw [set_oob _ _ _ (by omega)] at hx
        exact hx
    · rw [getD_set_ne _ _ _ _ hj] at hx
      exact hx

/-- The per-letter occurrence loop never grows a position's set and never
touches the candidate list or dictionary. -/
theorem processOccs_shrink (letter : Char) :
    ∀ (occs : List (Nat × LetterOutcome)) (acc acc2 : GameState × Bool × Nat),
      processOccs letter occs acc = some acc2 →
      acc2.1.possible_solutions = acc.1.possible_solutions ∧
      acc2.1.dictionary = acc.1.dictionary ∧
      acc2.1.possible_letters.length = acc.1.possible_letters.length ∧
      ∀ j, acc2.1.possible_letters.getD j ∅ ⊆ acc.1.possible_letters.getD j ∅
  | [], acc, acc2, h => by
    rcases Option.some.inj h with rfl
    exact ⟨rfl, rfl, rfl, fun j => Finset.Subset.refl _⟩
  | occ :: rest, acc, acc2, h => by
    rw [processOccs] at h
    rcases hstep : processOccurrence letter acc occ with _ | a
    · rw [hstep] at h; exact absurd h (by simp)
    · rw [hstep] at h
      obtain ⟨hs1, hd1, hl1, hsub1⟩ := processOccurrence_shrink letter acc a occ hstep
      obtain ⟨hs2, hd2, hl2, hsub2⟩ := processOccs_shrink letter rest a acc2 h
      exact ⟨hs2.trans hs1, hd2.trans hd1, hl2.trans hl1,
        fun j => (hsub2 j).trans (hsub1 j)⟩

/-- The per-letter outer loop never grows a position's set and never touches
the candidate list or dictionary. -/
theorem processGroups_shrink :
    ∀ (groups : List (Char × List (Nat × LetterOutcome))) (st st2 : GameState),
      processGroups groups st = some st2 →
      st2.possible_solutions = st.possible_solutions ∧
      st2.dictionary = st.dictionary ∧
      st2.possible_letters.length = st.possible_letters.length ∧
      ∀ j, st2.possible_letters.getD j ∅ ⊆ st.possible_letters.getD j ∅
  | [], st, st2, h => by
    rcases Option.some.inj h with rfl
    exact ⟨rfl, rfl, rfl, fun j => Finset.Subset.refl _⟩
  | (l, occs) :: rest, st, st2, h => by
    rw [processGroups] at h
    rcases hstep : processOccs l occs (st, false, 0) with _ | a
    · rw [hstep] at h; exact absurd h (by simp)
    · rw [hstep] at h
      obtain ⟨hs1, hd1, hl1, hsub1⟩ := processOccs_shrink l occs (st, false, 0) a hstep
      obtain ⟨hs2, hd2, hl2, hsub2⟩ := processGroups_shrink rest a.1 st2 h
      exact ⟨hs2.trans hs1, hd2.trans hd1, hl2.trans hl1,
        fun j => (hsub2 j).trans (hsub1 j)⟩

/-- `_update_state` keeps the candidate list unchanged (only
`_update_potential_solutions` rewrites it), never grows any position's
allowed-letter set, and preserves the positions-array length. -/
theorem update_state_shrink (st : GameState) (guess : GuessOutcome)
    (st1 : GameState) (h : st._update_state guess = some st1) :
    st1.possible_solutions = st.possible_solutions ∧
    st1.dictionary = st.dictionary ∧
    st1.possible_letters.length = st.possible_letters.length ∧
    ∀ j, st1.possible_letters.getD j ∅ ⊆ st.possible_letters.getD j ∅ :=
  processGroups_shrink (info_by_letter guess.letters)
    { st with is_initial_state := false } st1 h

/-- C7: after any successful `update`, the candidate list is a sublist of
the candidate list before the call (no word is ever added), and in
particular its length does not increase. -/
theorem update_monotonic_narrowing (st : GameState) (o : GuessOutcome)
    (st2 : GameState) (h : st.update o = some st2) :
    st2.possible_solutions.Sublist st.possible_solutions ∧
    st2.possible_solutions.length ≤ st.possible_solutions.length := by
  rcases Option.map_eq_some'.mp h with ⟨st1, h1, h2⟩
  obtain ⟨hs, _, _, _⟩ := update_state_shrink st o st1 h1
  have hsub : st2.possible_solutions.Sublist st.possible_solutions := by
    rw [← h2]
    show (st1.possible_solutions.filter (fun w => st1._word_fits w)).Sublist
      st.possible_solutions
    rw [← hs]
    exact List.filter_sublist _
  exact ⟨hsub, hsub.length_le⟩

/-- The spec's §8.7-style outcome of guessing `"ROATE"` against `"ABATE"`. -/
def demoOut : GuessOutcome :=
  ⟨[('R', LetterOutcome.Absent), ('O', LetterOutcome.Absent),
    ('A', LetterOutcome.Correct), ('T', LetterOutcome.Correct),
    ('E', LetterOutcome.Correct)]⟩

/-- C7 witness: the narrowing theorem at a concrete state and outcome (the
update succeeds and shrinks the two-candidate list). -/
theorem update_monotonic_narrowing_witness :
    ((GameState.update demoPair demoOut).getD demoPair).possible_solutions.Sublist
      demoPair.possible_solutions ∧
    ((GameState.update demoPair demoOut).getD demoPair).possible_solutions.length ≤
      demoPair.possible_solutions.length :=
  update_monotonic_narrowing demoPair demoOut
    ((GameState.update demoPair demoOut).getD demoPair) (by rfl)

/-- First-match lookup of a letter's occurrence list in the grouped view of
`info_by_letter`. -/
def lookupGroup (letter : Char) : List (Char × List (Nat × LetterOutcome)) →
    List (Nat × LetterOutcome)
  | [] => []
  | (l, v) :: rest => if l = letter then v else lookupGroup letter rest

/-- `addToGroups` appends the entry to exactly the looked-up letter's list. -/
theorem lookupGroup_addToGroups (letter l' : Char) (e : Nat × LetterOutcome) :
    ∀ g, lookupGroup letter (addToGroups l' e g) =
      if l' = letter then lookupGroup letter g ++ [e] else lookupGroup letter g
  | [] => by
    by_cases h : l' = letter <;> simp [addToGroups, lookupGroup, h]
  | (l, v) :: rest => by
    by_cases h1 : l = l'
    · subst h1
      by_cases h2 : l = letter <;>
        simp [addToGroups, lookupGroup, h2]
    · by_cases h2 : l = letter
      · subst h2
        have : l' ≠ l := fun he => h1 he.symm
        simp [addToGroups, lookupGroup, h1, this]
      · simp [addToGroups, lookupGroup, h1, h2,
          lookupGroup_addToGroups letter l' e rest]

/-- `addToGroups` keeps the key list, only adding the letter at the end when
it is new. -/
theorem keys_addToGroups (l' : Char) (e : Nat × LetterOutcome) :
    ∀ g, (addToGroups l' e g).map Prod.fst =
      if l' ∈ g.map Prod.fst then g.map Prod.fst else g.map Prod.fst ++ [l']
  | [] => by simp [addToGroups]
  | (l, v) :: rest => by
    by_cases h1 : l = l'
    · subst h1
      simp [addToGroups]
    · have h1' : l' ≠ l := fun he => h1 he.symm
      by_cases h2 : l' ∈ rest.map Prod.fst <;>
        simp [addToGroups, h1, h1', h2, keys_addToGroups l' e rest]

/-- `addToGroups` preserves distinctness of the group keys. -/
theorem keys_nodup_addToGroups (l' : Char) (e : Nat × LetterOutcome)
    (g : List (Char × List (Nat × LetterOutcome)))
    (h : (g.map Prod.fst).Nodup) : ((addToGroups l' e g).map Prod.fst).Nodup := by
  rw [keys_addToGroups]
  split_ifs with hmem
  · exact h
  · simp only [List.nodup_append, List.nodup_cons, List.nodup_nil]
    exact ⟨h, ⟨by simp, trivial⟩, by simpa [List.disjoint_singleton] using hmem⟩

/-- Lookup after the grouping fold: the accumulated list for a letter is the
initial one extended by that letter's (position, outcome) entries in order. -/
theorem lookupGroup_foldl (letter : Char) :
    ∀ (entries : List (Nat × (Char × LetterOutcome)))
      (g0 : List (Char × List (Nat × LetterOutcome))),
      lookupGroup letter
          (entries.foldl (fun groups p => addToGroups p.2.1 (p.1, p.2.2) groups) g0) =
        lookupGroup letter g0 ++
          (entries.filter (fun p => decide (p.2.1 = letter))).map (fun p => (p.1, p.2.2))
  | [], g0 => by simp
  | e :: rest, g0 => by
    rw [List.foldl_cons, lookupGroup_foldl letter rest, lookupGroup_addToGroups]
    by_cases h : e.2.1 = letter
    · rw [if_pos h]
      simp [List.filter_cons, h]
    · rw [if_neg h]
      simp [List.filter_cons, h]

/-- The grouping fold keeps the group keys distinct. -/
theorem keys_nodup_foldl :
    ∀ (entries : List (Nat × (Char × LetterOutcome)))
      (g0 : List (Char × List (Nat × LetterOutcome))),
      (g0.map Prod.fst).Nodup →
      ((entries.foldl (fun groups p => addToGroups p.2.1 (p.1, p.2.2) groups) g0).map
          Prod.fst).Nodup
  | [], g0, h => h
  | e :: rest, g0, h =>
    keys_nodup_foldl rest _ (keys_nodup_addToGroups e.2.1 (e.1, e.2.2) g0 h)

/-- The group of a letter in `info_by_letter` is exactly the enumerated
guess positions carrying that letter, in position order. -/
theorem lookupGroup_info_by_letter (letter : Char)
    (letters : List (Char × LetterOutcome)) :
    lookupGroup letter (info_by_letter letters) =
      (letters.enum.filter (fun p => decide (p.2.1 = letter))).map
        (fun p => (p.1, p.2.2)) := by
  unfold info_by_letter
  rw [lookupGroup_foldl]
  rfl

/-- The group keys of `info_by_letter` are distinct letters. -/
theorem info_by_letter_keys_nodup (letters : List (Char × LetterOutcome)) :
    ((info_by_letter letters).map Prod.fst).Nodup :=
  keys_nodup_foldl letters.enum [] List.nodup_nil

/-- With distinct keys, every member of the groups list is its own lookup. -/
theorem mem_groups_eq_lookup :
    ∀ (g : List (Char × List (Nat × LetterOutcome))),
      (g.map Prod.fst).Nodup →
      ∀ l v, (l, v) ∈ g → v = lookupGroup l g
  | [], _, l, v, h => absurd h (List.not_mem_nil _)
  | (l1, v1) :: rest, hnd, l, v, h => by
    rcases List.mem_cons.mp h with h | h
    · rcases Prod.mk.injEq .. ▸ h with ⟨rfl, rfl⟩
      simp [lookupGroup]
    · have hl : l ∈ rest.map Prod.fst :=
        List.mem_map.mpr ⟨(l, v), h, rfl⟩
      have hne : l1 ≠ l := by
        rintro rfl
        exact (List.nodup_cons.mp (by simpa using hnd)).1 hl
      rw [lookupGroup, if_neg hne]
      exact mem_groups_eq_lookup rest (List.nodup_cons.mp (by simpa using hnd)).2 l v h

/-- A non-empty lookup is itself a member of the groups list. -/
theorem lookup_mem :
    ∀ (g : List (Char × List (Nat × LetterOutcome))) (l : Char),
      lookupGroup l g ≠ [] → (l, lookupGroup l g) ∈ g
  | [], l, h => absurd rfl h
  | (l1, v1) :: rest, l, h => by
    by_cases he : l1 = l
    · subst he
      simp [lookupGroup]
    · rw [lookupGroup, if_neg he] at h ⊢
      exact List.mem_cons_of_mem _ (lookup_mem rest l h)

/-- One occurrence step only modifies the set at its own position. -/
theorem processOccurrence_untouched (letter : Char) (acc acc2 : GameState × Bool × Nat)
    (occ : Nat × LetterOutcome)
    (h : processOccurrence letter acc occ = some acc2)
    (j : Nat) (hj : j ≠ occ.1) :
    acc2.1.possible_letters.getD j ∅ = acc.1.possible_letters.getD j ∅ := by
  unfold processOccurrence at h
  rcases Option.map_eq_some'.mp h with ⟨a, ha, hfa⟩
  have hp : acc2.1.possible_letters = a.1.possible_letters := by
    rw [← hfa]
    dsimp only
    split_ifs <;> rfl
  rw [hp]
  rcases occ with ⟨i, o⟩
  cases o with
  | Correct =>
    dsimp only at ha
    split_ifs at ha
    rcases Option.some.inj ha with rfl
    exact getD_set_ne _ _ _ _ hj
  | Present =>
    dsimp only at ha
    rcases Option.some.inj ha with rfl
    exact getD_set_ne _ _ _ _ hj
  | Absent =>
    dsimp only at ha
    rcases Option.some.inj ha with rfl
    exact getD_set_ne _ _ _ _ hj

/-- A position not mentioned in a letter's occurrence list survives the
per-letter loop untouched. -/
theorem processOccs_untouched (letter : Char) :
    ∀ (occs : List (Nat × LetterOutcome)) (acc acc2 : GameState × Bool × Nat),
      processOccs letter occs acc = some acc2 →
      ∀ j, j ∉ occs.map Prod.fst →
        acc2.1.possible_letters.getD j ∅ = acc.1.possible_letters.getD j ∅
  | [], acc, acc2, h, j, _ => by
    rcases Option.some.inj h with rfl
    rfl
  | occ :: rest, acc, acc2, h, j, hj => by
    rw [processOccs] at h
    rcases hstep : processOccurrence letter acc occ with _ | a
    · rw [hstep] at h; exact absurd h (by simp)
    · rw [hstep] at h
      have hj1 : j ≠ occ.1 := fun he => hj (by simp [he])
      have hj2 : j ∉ rest.map Prod.fst := fun he => hj (by simp [he])
      rw [processOccs_untouched letter rest a acc2 h j hj2]
      exact processOccurrence_untouched letter acc a occ hstep j hj1

/-- A successful `Correct` step pins the position to the singleton set. -/
theorem processOccurrence_correct_case (letter : Char) (acc a : GameState × Bool × Nat)
    (i : Nat)
    (h : processOccurrence letter acc (i, LetterOutcome.Correct) = some a) :
    a.1.possible_letters.getD i ∅ = {letter} := by
  unfold processOccurrence at h
  rcases Option.map_eq_some'.mp h with ⟨b, hb, hfb⟩
  have hp : a.1.possible_letters = b.1.possible_letters := by
    rw [← hfb]
    dsimp only
    split_ifs <;> rfl
  rw [hp]
  dsimp only at hb
  split_ifs at hb with hmem
  rcases Option.some.inj hb with rfl
  have hlt : i < acc.1.possible_letters.length := by
    by_contra hge
    rw [List.getD_eq_default _ _ (by omega)] at hmem
    exact absurd hmem (Finset.not_mem_empty _)
  exact getD_set_self _ _ _ hlt

/-- If a letter's occurrence list mentions position `i` with a `Correct`
classification (positions within one letter's list are distinct), then after
the per-letter loop the set at `i` is exactly the singleton of that letter. -/
theorem processOccs_correct_singleton (letter : Char) (i : Nat) :
    ∀ (occs : List (Nat × LetterOutcome)) (acc acc2 : GameState × Bool × Nat),
      (occs.map Prod.fst).Nodup →
      (i, LetterOutcome.Correct) ∈ occs →
      processOccs letter occs acc = some acc2 →
      acc2.1.possible_letters.getD i ∅ = {letter}
  | [], _, _, _, hmem, _ => absurd hmem (List.not_mem_nil _)
  | occ :: rest, acc, acc2, hnd, hmem, h => by
    rw [List.map_cons, List.nodup_cons] at hnd
    rw [processOccs] at h
    rcases hstep : processOccurrence letter acc occ with _ | a
    · rw [hstep] at h; exact absurd h (by simp)
    · rw [hstep] at h
      rcases List.mem_cons.mp hmem with hocc | hocc
      · have hi : i ∉ rest.map Prod.fst := by
          have hx := hnd.1
          rw [← hocc] at hx
          exact hx
        rw [processOccs_untouched letter rest a acc2 h i hi]
        rw [← hocc] at hstep
        exact processOccurrence_correct_case letter acc a i hstep
      · exact processOccs_correct_singleton letter i rest a acc2 hnd.2 hocc h

/-- A position mentioned in no group survives the outer loop untouched. -/
theorem processGroups_untouched :
    ∀ (groups : List (Char × List (Nat × LetterOutcome))) (st st2 : GameState),
      processGroups groups st = some st2 →
      ∀ i, (∀ lv ∈ groups, i ∉ lv.2.map Prod.fst) →
        st2.possible_letters.getD i ∅ = st.possible_letters.getD i ∅
  | [], st, st2, h, i, _ => by
    rcases Option.some.inj h with rfl
    rfl
  | (l, occs) :: rest, st, st2, h, i, hi => by
    rw [processGroups] at h
    rcases hstep : processOccs l occs (st, false, 0) with _ | a
    · rw [hstep] at h; exact absurd h (by simp)
    · rw [hstep] at h
      rw [processGroups_untouched rest a.1 st2 h i
        (fun lv hlv => hi lv (List.mem_cons_of_mem _ hlv))]
      exact processOccs_untouched l occs (st, false, 0) a hstep i
        (hi (l, occs) (List.mem_cons_self _ _))

/-- Through the whole outer loop of `_update_state`: if some group carries a
`Correct` classification of letter `l` at position `i`, and the groups are a
coherent grouping of the guess (each entry points back to the guess, each
group's positions are distinct, keys are distinct), then the final set at
position `i` is exactly `{l}`. -/
theorem processGroups_correct_singleton :
    ∀ (groups : List (Char × List (Nat × LetterOutcome))) (st st2 : GameState)
      (letters : List (Char × LetterOutcome)) (i : Nat) (l : Char),
      processGroups groups st = some st2 →
      (∀ lv ∈ groups, ∀ e ∈ lv.2, letters.get? e.1 = some (lv.1, e.2)) →
      (∀ lv ∈ groups, (lv.2.map Prod.fst).Nodup) →
      (groups.map Prod.fst).Nodup →
      (∃ v, (l, v) ∈ groups ∧ (i, LetterOutcome.Correct) ∈ v) →
      st2.possible_letters.getD i ∅ = {l}
  | [], st, st2, letters, i, l, h, _, _, _, htarget => by
    rcases htarget with ⟨v, hv, _⟩
    exact absurd hv (List.not_mem_nil _)
  | (l1, occs) :: rest, st, st2, letters, i, l, h, hsound, hdistinct, hkeys, htarget => by
    rw [List.map_cons, List.nodup_cons] at hkeys
    rw [processGroups] at h
    rcases hstep : processOccs l1 occs (st, false, 0) with _ | a
    · rw [hstep] at h; exact absurd h (by simp)
    · rw [hstep] at h
      rcases htarget with ⟨v, hv, hiv⟩
      rcases List.mem_cons.mp hv with hv | hv
      · rcases Prod.mk.injEq .. ▸ hv with ⟨rfl, rfl⟩
        have hget : letters.get? i = some (l, LetterOutcome.Correct) :=
          hsound (l, v) (List.mem_cons_self _ _) (i, LetterOutcome.Correct) hiv
        have hrest : ∀ lv ∈ rest, i ∉ lv.2.map Prod.fst := by
          rintro lv hlv hmem
          rcases List.mem_map.mp hmem with ⟨e, he, hei⟩
          have hget2 : letters.get? e.1 = some (lv.1, e.2) :=
            hsound lv (List.mem_cons_of_mem _ hlv) e he
          rw [hei] at hget2
          have hpair : (l, LetterOutcome.Correct) = (lv.1, e.2) :=
            Option.some.inj (hget.symm.trans hget2)
          have hleq : lv.1 = l := (Prod.ext_iff.mp hpair).1.symm
          have hlmem : l ∈ rest.map Prod.fst := List.mem_map.mpr ⟨lv, hlv, hleq⟩
          exact hkeys.1 hlmem
        rw [processGroups_untouched rest a.1 st2 h i hrest]
        exact processOccs_correct_singleton l i v (st, false, 0) a
          (hdistinct (l, v) (List.mem_cons_self _ _)) hiv hstep
      · exact processGroups_correct_singleton rest a.1 st2 letters i l h
          (fun lv hlv => hsound lv (List.mem_cons_of_mem _ hlv))
          (fun lv hlv => hdistinct lv (List.mem_cons_of_mem _ hlv))
          hkeys.2
          ⟨v, hv, hiv⟩

/-- Soundness of the grouping: every entry of every group points back to the
guess position it came from. -/
theorem info_by_letter_sound (letters : List (Char × LetterOutcome)) :
    ∀ lv ∈ info_by_letter letters, ∀ e ∈ lv.2,
      letters.get? e.1 = some (lv.1, e.2) := by
  rintro ⟨l', v⟩ hlv e he
  have hv : v = lookupGroup l' (info_by_letter letters) :=
    mem_groups_eq_lookup _ (info_by_letter_keys_nodup letters) l' v hlv
  rw [hv, lookupGroup_info_by_letter] at he
  rcases List.mem_map.mp he with ⟨p, hp, hpe⟩
  rcases List.mem_filter.mp hp with ⟨hpenum, hq⟩
  have hget : letters.get? p.1 = some p.2 := List.mem_enum_iff_get?.mp hpenum
  have hl : p.2.1 = l' := of_decide_eq_true hq
  rw [← hpe]
  dsimp only
  rw [hget, ← hl, Prod.mk.eta]

/-- Within one letter's group, the guess positions are distinct. -/
theorem info_by_letter_positions_nodup (letters : List (Char × LetterOutcome)) :
    ∀ lv ∈ info_by_letter letters, (lv.2.map Prod.fst).Nodup := by
  rintro ⟨l', v⟩ hlv
  have hv : v = lookupGroup l' (info_by_letter letters) :=
    mem_groups_eq_lookup _ (info_by_letter_keys_nodup letters) l' v hlv
  rw [hv, lookupGroup_info_by_letter, List.map_map]
  have h1 : (letters.enum.filter (fun p => decide (p.2.1 = l'))).Sublist letters.enum :=
    List.filter_sublist _
  have h2 := h1.map (Prod.fst ∘ fun p : Nat × (Char × LetterOutcome) => (p.1, p.2.2))
  refine List.Nodup.sublist h2 ?_
  have h3 : (letters.enum.map
      (Prod.fst ∘ fun p : Nat × (Char × LetterOutcome) => (p.1, p.2.2))) =
      letters.enum.map Prod.fst := by
    apply List.map_congr_left
    intro p _
    rfl
  rw [h3]
  exact List.nodup_enum_map_fst letters

/-- Completeness of the grouping: a `Correct` (or any) classification at a
guess position appears in its letter's group. -/
theorem info_by_letter_complete (letters : List (Char × LetterOutcome))
    (i : Nat) (l : Char) (o : LetterOutcome)
    (h : letters.get? i = some (l, o)) :
    ∃ v, (l, v) ∈ info_by_letter letters ∧ (i, o) ∈ v := by
  have henum : (i, (l, o)) ∈ letters.enum := List.mem_enum_iff_get?.mpr h
  have hfil : (i, (l, o)) ∈ letters.enum.filter (fun p => decide (p.2.1 = l)) :=
    List.mem_filter.mpr ⟨henum, by simp⟩
  have hmap : (i, o) ∈ lookupGroup l (info_by_letter letters) := by
    rw [lookupGroup_info_by_letter]
    exact List.mem_map.mpr ⟨(i, (l, o)), hfil, rfl⟩
  have hne : lookupGroup l (info_by_letter letters) ≠ [] := by
    intro hnil
    rw [hnil] at hmap
    exact absurd hmap (List.not_mem_nil _)
  exact ⟨_, lookup_mem _ l hne, hmap⟩

/-- C8: whenever `update` returns normally (no `Correct`-case assertion
fires), every per-position allowed-letter set only shrinks, and a position
classified `Correct` with letter `l` ends as exactly the singleton `{l}`. -/
theorem update_letters_shrink (st : GameState) (o : GuessOutcome) (st2 : GameState)
    (h : st.update o = some st2) :
    (∀ i, st2.possible_letters.getD i ∅ ⊆ st.possible_letters.getD i ∅) ∧
    (∀ i l, o.letters.get? i = some (l, LetterOutcome.Correct) →
      st2.possible_letters.getD i ∅ = {l}) := by
  rcases Option.map_eq_some'.mp h with ⟨st1, h1, h2⟩
  have hpl : st2.possible_letters = st1.possible_letters := by
    rw [← h2]
    rfl
  obtain ⟨_, _, _, hsub⟩ := update_state_shrink st o st1 h1
  constructor
  · intro i
    rw [hpl]
    exact hsub i
  · intro i l hil
    rw [hpl]
    exact processGroups_correct_singleton (info_by_letter o.letters)
      { st with is_initial_state := false } st1 o.letters i l h1
      (info_by_letter_sound o.letters)
      (info_by_letter_positions_nodup o.letters)
      (info_by_letter_keys_nodup o.letters)
      (info_by_letter_complete o.letters i l LetterOutcome.Correct hil)

/-- C8 witness: the shrink-and-singleton theorem at a concrete state and
outcome containing `Correct` classifications. -/
theorem update_letters_shrink_witness :
    (∀ i, ((GameState.update demoPair demoOut).getD demoPair).possible_letters.getD i ∅ ⊆
        demoPair.possible_letters.getD i ∅) ∧
    (∀ i l, demoOut.letters.get? i = some (l, LetterOutcome.Correct) →
      ((GameState.update demoPair demoOut).getD demoPair).possible_letters.getD i ∅
        = {l}) :=
  update_letters_shrink demoPair demoOut
    ((GameState.update demoPair demoOut).getD demoPair) (by rfl)

/-- Number of pairs of an outcome carrying letter `l` classified `o`. -/
def cntLO (l : Char) (o : LetterOutcome) (ps : List (Char × LetterOutcome)) : Nat :=
  (ps.filter (fun p => decide (p.1 = l) && decide (p.2 = o))).length

/-- Number of exact-position matches of letter `l` between guess and solution. -/
def countExact (l : Char) (g s : List Char) : Nat :=
  ((g.zip s).filter (fun p => decide (p.1 = l) && decide (p.2 = l))).length

/-- Number of yet-unaccounted solution positions carrying letter `l`. -/
def unacc (l : Char) (accounted : List Bool) (solution : List Char) : Nat :=
  ((accounted.zip solution).filter
    (fun p => decide (p.1 = false) && decide (p.2 = l))).length

/-- Number of guess positions carrying `l` whose current result is not
`Correct` (the positions pass 2 still tries to mark `Present`). -/
def ncCnt (l : Char) (gs : List Char) (rs : List LetterOutcome) : Nat :=
  ((gs.zip rs).filter
    (fun p => decide (p.1 = l) && !(decide (p.2 = LetterOutcome.Correct)))).length

/-- Pass 1's per-position result. -/
def outf (a b : Char) : LetterOutcome :=
  if a = b then LetterOutcome.Correct else LetterOutcome.Absent

/-- Pass 1's per-position accounting mark. -/
def eqd (a b : Char) : Bool := decide (a = b)

theorem cntLO_cons (l : Char) (o : LetterOutcome) (a : Char) (b : LetterOutcome)
    (ps : List (Char × LetterOutcome)) :
    cntLO l o ((a, b) :: ps) = (if a = l ∧ b = o then 1 else 0) + cntLO l o ps := by
  unfold cntLO
  rw [List.filter_cons]
  by_cases h1 : a = l <;> by_cases h2 : b = o <;>
    simp [h1, h2, Nat.add_comm]

theorem ncCnt_cons (l g : Char) (r : LetterOutcome) (gs : List Char)
    (rs : List LetterOutcome) :
    ncCnt l (g :: gs) (r :: rs) =
      (if g = l ∧ ¬ r = LetterOutcome.Correct then 1 else 0) + ncCnt l gs rs := by
  unfold ncCnt
  rw [List.zip_cons_cons, List.filter_cons]
  by_cases h1 : g = l <;> by_cases h2 : r = LetterOutcome.Correct <;>
    simp [h1, h2, Nat.add_comm]

theorem unacc_cons (l : Char) (a : Bool) (bs : List Bool) (s : Char)
    (ss : List Char) :
    unacc l (a :: bs) (s :: ss) =
      (if a = false ∧ s = l then 1 else 0) + unacc l bs ss := by
  unfold unacc
  rw [List.zip_cons_cons, List.filter_cons]
  by_cases h1 : a = false <;> by_cases h2 : s = l <;>
    simp [h1, h2, Nat.add_comm]

theorem countExact_cons (l a b : Char) (g s : List Char) :
    countExact l (a :: g) (b :: s) =
      (if a = l ∧ b = l then 1 else 0) + countExact l g s := by
  unfold countExact
  rw [List.zip_cons_cons, List.filter_cons]
  by_cases h1 : a = l <;> by_cases h2 : b = l <;>
    simp [h1, h2, Nat.add_comm]

/-- An unsuccessful `scanSolution` means no unaccounted occurrence of the
guess letter remains in the scanned range. -/
theorem scanSolution_none_unacc (g : Char) :
    ∀ (acc : List Bool) (sol : List Char),
      scanSolution g acc sol = none → unacc g acc sol = 0
  | [], sol, _ => by cases sol <;> rfl
  | a :: bs, [], _ => rfl
  | a :: bs, s :: ss, h => by
    rw [unacc_cons]
    rw [scanSolution] at h
    by_cases ha : a = true
    · rw [if_pos ha] at h
      have hrec : scanSolution g bs ss = none := by
        rcases hx : scanSolution g bs ss with _ | t
        · rfl
        · rw [hx] at h; exact absurd h (by simp)
      rw [scanSolution_none_unacc g bs ss hrec]
      have hcond : ¬ (a = false ∧ s = g) := by
        rintro ⟨h1, _⟩
        rw [ha] at h1
        exact Bool.noConfusion h1
      rw [if_neg hcond]
    · rw [if_neg ha] at h
      by_cases hgs : g = s
      · rw [if_pos hgs] at h
        exact absurd h (by simp)
      · rw [if_neg hgs] at h
        have hrec : scanSolution g bs ss = none := by
          rcases hx : scanSolution g bs ss with _ | t
          · rfl
          · rw [hx] at h; exact absurd h (by simp)
        rw [scanSolution_none_unacc g bs ss hrec]
        have hcond : ¬ (a = false ∧ s = g) := fun hc => hgs hc.2.symm
        rw [if_neg hcond]

/-- A successful `scanSolution` consumes exactly one unaccounted occurrence
of the guess letter and leaves every other letter's unaccounted count
unchanged. -/
theorem scanSolution_some_unacc (g : Char) :
    ∀ (acc : List Bool) (sol : List Char) (acc2 : List Bool),
      scanSolution g acc sol = some acc2 →
      unacc g acc2 sol + 1 = unacc g acc sol ∧
      ∀ l, l ≠ g → unacc l acc2 sol = unacc l acc sol
  | [], sol, acc2, h => by
    cases sol <;> exact absurd h (by simp [scanSolution])
  | a :: bs, [], acc2, h => absurd h (by simp [scanSolution])
  | a :: bs, s :: ss, acc2, h => by
    rw [scanSolution] at h
    by_cases ha : a = true
    · rw [if_pos ha] at h
      rcases Option.map_eq_some'.mp h with ⟨t, ht, hta⟩
      obtain ⟨h1, h2⟩ := scanSolution_some_unacc g bs ss t ht
      subst hta
      have hcg : ¬ (a = false ∧ s = g) := by
        rintro ⟨hx, _⟩
        rw [ha] at hx
        exact Bool.noConfusion hx
      constructor
      · rw [unacc_cons, unacc_cons, if_neg hcg]
        omega
      · intro l hl
        have hcl : ¬ (a = false ∧ s = l) := by
          rintro ⟨hx, _⟩
          rw [ha] at hx
          exact Bool.noConfusion hx
        rw [unacc_cons, unacc_cons, if_neg hcl, h2 l hl]
    · rw [if_neg ha] at h
      have haf : a = false := by
        cases a
        · rfl
        · exact absurd rfl ha
      by_cases hgs : g = s
      · rw [if_pos hgs] at h
        rcases Option.some.inj h with rfl
        constructor
        · rw [unacc_cons, unacc_cons]
          have hbefore : a = false ∧ s = g := ⟨haf, hgs.symm⟩
          have hafter : ¬ ((true : Bool) = false ∧ s = g) := by
            rintro ⟨hx, _⟩
            exact Bool.noConfusion hx
          rw [if_pos hbefore, if_neg hafter]
          omega
        · intro l hl
          rw [unacc_cons, unacc_cons]
          have hbefore : ¬ (a = false ∧ s = l) := by
            rintro ⟨_, hx⟩
            exact hl (hgs.trans hx).symm
          have hafter : ¬ ((true : Bool) = false ∧ s = l) := by
            rintro ⟨hx, _⟩
            exact Bool.noConfusion hx
          rw [if_neg hbefore, if_neg hafter]
      · rw [if_neg hgs] at h
        rcases Option.map_eq_some'.mp h with ⟨t, ht, hta⟩
        obtain ⟨h1, h2⟩ := scanSolution_some_unacc g bs ss t ht
        subst hta
        constructor
        · have hcg : ¬ (a = false ∧ s = g) := fun hc => hgs hc.2.symm
          rw [unacc_cons, unacc_cons, if_neg hcg]
          omega
        · intro l hl
          rw [unacc_cons, unacc_cons, h2 l hl]

theorem pass2_cons_correct (rs : List LetterOutcome) (g : Char) (gs : List Char)
    (acc : List Bool) (sol : List Char) :
    pass2 (LetterOutcome.Correct :: rs) (g :: gs) acc sol =
      LetterOutcome.Correct :: pass2 rs gs acc sol := rfl

theorem pass2_cons_ncorrect (r : LetterOutcome) (h : ¬ r = LetterOutcome.Correct)
    (rs : List LetterOutcome) (g : Char) (gs : List Char)
    (acc : List Bool) (sol : List Char) :
    pass2 (r :: rs) (g :: gs) acc sol =
      match scanSolution g acc sol with
      | some acc2 => LetterOutcome.Present :: pass2 rs gs acc2 sol
      | none => r :: pass2 rs gs acc sol := by
  show (if r = LetterOutcome.Correct then r :: pass2 rs gs acc sol
    else match scanSolution g acc sol with
      | some acc2 => LetterOutcome.Present :: pass2 rs gs acc2 sol
      | none => r :: pass2 rs gs acc sol) = _
  rw [if_neg h]

/-- The central counting invariant of pass 2: walking the remaining
results/guess pairs, the number of `Present` marks letter `l` receives is
the lesser of the number of its still-unmarked guess positions and the
number of its unaccounted solution occurrences, and the `Correct` marks are
exactly the ones already present in the results. -/
theorem pass2_counts (l : Char) :
    ∀ (gs : List Char) (rs : List LetterOutcome) (acc : List Bool) (sol : List Char),
      (∀ r ∈ rs, r = LetterOutcome.Correct ∨ r = LetterOutcome.Absent) →
      cntLO l LetterOutcome.Present (gs.zip (pass2 rs gs acc sol)) =
        min (ncCnt l gs rs) (unacc l acc sol) ∧
      cntLO l LetterOutcome.Correct (gs.zip (pass2 rs gs acc sol)) =
        cntLO l LetterOutcome.Correct (gs.zip rs)
  | [], rs, acc, sol, _ => by
    constructor <;> simp [cntLO, ncCnt]
  | g :: gs, [], acc, sol, _ => by
    constructor <;> simp [pass2, cntLO, ncCnt]
  | g :: gs, r :: rs, acc, sol, hra => by
    have hrtail : ∀ x ∈ rs, x = LetterOutcome.Correct ∨ x = LetterOutcome.Absent :=
      fun x hx => hra x (List.mem_cons_of_mem _ hx)
    by_cases hc : r = LetterOutcome.Correct
    · subst hc
      rw [pass2_cons_correct]
      obtain ⟨ih1, ih2⟩ := pass2_counts l gs rs acc sol hrtail
      constructor
      · rw [List.zip_cons_cons, cntLO_cons, ncCnt_cons, ih1]
        have h1 : ¬ (g = l ∧ LetterOutcome.Correct = LetterOutcome.Present) := by
          rintro ⟨_, hx⟩
          exact LetterOutcome.noConfusion hx
        have h2 : ¬ (g = l ∧ ¬ LetterOutcome.Correct = LetterOutcome.Correct) := by
          rintro ⟨_, hx⟩
          exact hx rfl
        rw [if_neg h1, if_neg h2]
        simp
      · rw [List.zip_cons_cons, List.zip_cons_cons, cntLO_cons, cntLO_cons, ih2]
    · have hr : r = LetterOutcome.Absent := by
        rcases hra r (List.mem_cons_self _ _) with hx | hx
        · exact absurd hx hc
        · exact hx
      subst hr
      rw [pass2_cons_ncorrect _ hc]
      rcases hscan : scanSolution g acc sol with _ | acc2
      · dsimp only
        obtain ⟨ih1, ih2⟩ := pass2_counts l gs rs acc sol hrtail
        constructor
        · rw [List.zip_cons_cons, cntLO_cons, ncCnt_cons, ih1]
          have h1 : ¬ (g = l ∧ LetterOutcome.Absent = LetterOutcome.Present) := by
            rintro ⟨_, hx⟩
            exact LetterOutcome.noConfusion hx
          rw [if_neg h1]
          by_cases hg : g = l
          · have h2 : g = l ∧ ¬ LetterOutcome.Absent = LetterOutcome.Correct :=
              ⟨hg, fun hx => LetterOutcome.noConfusion hx⟩
            rw [if_pos h2]
            have hu : unacc l acc sol = 0 := by
              rw [← hg]
              exact scanSolution_none_unacc g acc sol hscan
            rw [hu]
            simp
          · have h2 : ¬ (g = l ∧ ¬ LetterOutcome.Absent = LetterOutcome.Correct) := by
              rintro ⟨hx, _⟩
              exact hg hx
            rw [if_neg h2]
            simp
        · rw [List.zip_cons_cons, List.zip_cons_cons, cntLO_cons, cntLO_cons, ih2]
      · dsimp only
        obtain ⟨ih1, ih2⟩ := pass2_counts l gs rs acc2 sol hrtail
        obtain ⟨hs1, hs2⟩ := scanSolution_some_unacc g acc sol acc2 hscan
        constructor
        · rw [List.zip_cons_cons, cntLO_cons, ncCnt_cons, ih1]
          by_cases hg : g = l
          · have h1 : g = l ∧ LetterOutcome.Present = LetterOutcome.Present := ⟨hg, rfl⟩
            have h2 : g = l ∧ ¬ LetterOutcome.Absent = LetterOutcome.Correct :=
              ⟨hg, fun hx => LetterOutcome.noConfusion hx⟩
            rw [if_pos h1, if_pos h2]
            subst hg
            rw [← hs1]
            omega
          · have h1 : ¬ (g = l ∧ LetterOutcome.Present = LetterOutcome.Present) := by
              rintro ⟨hx, _⟩
              exact hg hx
            have h2 : ¬ (g = l ∧ ¬ LetterOutcome.Absent = LetterOutcome.Correct) := by
              rintro ⟨hx, _⟩
              exact hg hx
            rw [if_neg h1, if_neg h2, hs2 l (fun hx => hg hx.symm)]
            simp
        · rw [List.zip_cons_cons, List.zip_cons_cons, cntLO_cons, cntLO_cons, ih2]
          have h1 : ¬ (g = l ∧ LetterOutcome.Present = LetterOutcome.Correct) := by
            rintro ⟨_, hx⟩
            exact LetterOutcome.noConfusion hx
          have h2 : ¬ (g = l ∧ LetterOutcome.Absent = LetterOutcome.Correct) := by
            rintro ⟨_, hx⟩
            exact LetterOutcome.noConfusion hx
          rw [if_neg h1, if_neg h2]

theorem pass1_cons (g0 b : Char) (gt bs : List Char) (r : LetterOutcome)
    (rs : List LetterOutcome) (a : Bool) (tl : List Bool) :
    pass1 (g0 :: gt) (b :: bs) (r :: rs) (a :: tl) =
      (if g0 = b ∧ a = false then
        (LetterOutcome.Correct :: (pass1 gt bs rs tl).1, true :: (pass1 gt bs rs tl).2)
      else
        (r :: (pass1 gt bs rs tl).1, a :: (pass1 gt bs rs tl).2)) := rfl

/-- Pass 1 on fresh `results`/`accounted` vectors: the results are the
exact-match classification of each position (leftover initial entries kept at
the end), and the accounting marks are the per-position equality flags. -/
theorem pass1_eq : ∀ (g s : List Char) (m : Nat),
    g.length = s.length → g.length ≤ m →
    pass1 g s (List.replicate m LetterOutcome.Absent) (List.replicate g.length false) =
      (g.zipWith outf s ++ List.replicate (m - g.length) LetterOutcome.Absent,
       g.zipWith eqd s)
  | [], s, m, _, _ => rfl
  | g0 :: gt, s, m, hl, hm => by
    cases s with
    | nil => simp at hl
    | cons b bs =>
      cases m with
      | zero => simp at hm
      | succ m' =>
        have hl' : gt.length = bs.length := by simpa using hl
        have hm' : gt.length ≤ m' := by simpa using hm
        have ih := pass1_eq gt bs m' hl' hm'
        show pass1 (g0 :: gt) (b :: bs)
            (LetterOutcome.Absent :: List.replicate m' LetterOutcome.Absent)
            (false :: List.replicate gt.length false) = _
        rw [pass1_cons, ih]
        by_cases hgb : g0 = b
        · rw [if_pos ⟨hgb, rfl⟩]
          simp [outf, eqd, hgb, Nat.succ_sub_succ]
        · rw [if_neg (fun hc => hgb hc.1)]
          simp [outf, eqd, hgb, Nat.succ_sub_succ]

theorem pass2_nil_gs : ∀ (rs : List LetterOutcome) (acc : List Bool)
    (sol : List Char), pass2 rs [] acc sol = rs
  | [], _, _ => rfl
  | _ :: _, _, _ => rfl

/-- Pass 2 preserves the length of the results vector. -/
theorem pass2_length : ∀ (rs : List LetterOutcome) (gs : List Char)
    (acc : List Bool) (sol : List Char),
    (pass2 rs gs acc sol).length = rs.length
  | rs, [], _, _ => by rw [pass2_nil_gs]
  | [], _ :: _, _, _ => rfl
  | r :: rs, g :: gs, acc, sol => by
    by_cases hc : r = LetterOutcome.Correct
    · subst hc
      rw [pass2_cons_correct]
      simp [pass2_length rs gs acc sol]
    · rw [pass2_cons_ncorrect _ hc]
      rcases scanSolution g acc sol with _ | acc2
      · dsimp only
        simp [pass2_length rs gs acc sol]
      · dsimp only
        simp [pass2_length rs gs acc2 sol]

/-- Results beyond the guess length ride through pass 2 unchanged. -/
theorem pass2_append_extra : ∀ (gs : List Char) (rs extra : List LetterOutcome)
    (acc : List Bool) (sol : List Char),
    gs.length ≤ rs.length →
    pass2 (rs ++ extra) gs acc sol = pass2 rs gs acc sol ++ extra
  | [], rs, extra, acc, sol, _ => by
    rw [pass2_nil_gs, pass2_nil_gs]
  | g :: gs, rs, extra, acc, sol, h => by
    cases rs with
    | nil => simp at h
    | cons r rs' =>
      have h' : gs.length ≤ rs'.length := by simpa using h
      by_cases hc : r = LetterOutcome.Correct
      · subst hc
        show pass2 (LetterOutcome.Correct :: (rs' ++ extra)) (g :: gs) acc sol = _
        rw [pass2_cons_correct, pass2_cons_correct,
          pass2_append_extra gs rs' extra acc sol h']
        rfl
      · show pass2 (r :: (rs' ++ extra)) (g :: gs) acc sol = _
        rw [pass2_cons_ncorrect _ hc, pass2_cons_ncorrect _ hc]
        rcases scanSolution g acc sol with _ | acc2
        · dsimp only
          rw [pass2_append_extra gs rs' extra acc sol h']
          rfl
        · dsimp only
          rw [pass2_append_extra gs rs' extra acc2 sol h']
          rfl

/-- Zipping ignores appended entries beyond the left list's length. -/
theorem zip_left_trunc : ∀ (g : List Char) (x extra : List LetterOutcome),
    g.length ≤ x.length → g.zip (x ++ extra) = g.zip x
  | [], _, _, _ => rfl
  | a :: g', [], extra, h => by simp at h
  | a :: g', b :: x', extra, h => by
    show (a :: g').zip (b :: (x' ++ extra)) = _
    rw [List.zip_cons_cons, List.zip_cons_cons,
      zip_left_trunc g' x' extra (by simpa using h)]

/-- For `WORD_LENGTH`-letter words, the outcome of `evaluate_guess` is the
guess zipped with pass 2 run on the exact-match classification and the
exact-match accounting flags (the sixth, never-written `results` slot is
truncated away by the final zip). -/
theorem evaluate_guess_letters_eq (g s : List Char)
    (hg : g.length = WORD_LENGTH) (hs : s.length = WORD_LENGTH) :
    (evaluate_guess g s).letters =
      g.zip (pass2 (g.zipWith outf s) g (g.zipWith eqd s) s) := by
  have hl : g.length = s.length := by rw [hg, hs]
  have hm : g.length ≤ NUM_GUESSES := by rw [hg]; decide
  show g.zip (pass2 (pass1 g s (List.replicate NUM_GUESSES LetterOutcome.Absent)
      (List.replicate WORD_LENGTH false)).1 g
      (pass1 g s (List.replicate NUM_GUESSES LetterOutcome.Absent)
        (List.replicate WORD_LENGTH false)).2 s) = _
  rw [show List.replicate WORD_LENGTH false = List.replicate g.length false by rw [hg]]
  rw [pass1_eq g s NUM_GUESSES hl hm]
  dsimp only
  rw [pass2_append_extra g (g.zipWith outf s) _ _ s
    (by rw [List.length_zipWith]; omega)]
  rw [zip_left_trunc g _ _ (by rw [pass2_length, List.length_zipWith]; omega)]

/-- The first component of a zipped pair is the corresponding left entry. -/
theorem zip_get_fst : ∀ (g : List Char) (r : List LetterOutcome) (i : Nat)
    (h : i < (g.zip r).length) (hi : i < g.length),
    ((g.zip r).get ⟨i, h⟩).1 = g.get ⟨i, hi⟩
  | [], r, i, h, hi => by simp at hi
  | a :: g', [], i, h, hi => by simp [List.zip_nil_right] at h
  | a :: g', b :: r', 0, _, _ => rfl
  | a :: g', b :: r', i + 1, h, hi =>
    zip_get_fst g' r' i (by simpa using h) (by simpa using hi)

/-- C9: for `WORD_LENGTH`-letter guess and solution, the outcome's letters
sequence has length exactly `WORD_LENGTH` and its `i`-th pair carries the
guess's `i`-th letter. -/
theorem evaluate_guess_shape (g s : List Char)
    (hg : g.length = WORD_LENGTH) (hs : s.length = WORD_LENGTH) :
    (evaluate_guess g s).letters.length = WORD_LENGTH ∧
    ∀ i (h : i < (evaluate_guess g s).letters.length) (hi : i < g.length),
      ((evaluate_guess g s).letters.get ⟨i, h⟩).1 = g.get ⟨i, hi⟩ := by
  have hL := evaluate_guess_letters_eq g s hg hs
  constructor
  · rw [hL, List.length_zip, pass2_length, List.length_zipWith]
    omega
  · intro i h hi
    rw [List.get_of_eq hL]
    exact zip_get_fst g _ i _ hi

/-- C9 witness: the shape theorem at a concrete guess/solution pair. -/
theorem evaluate_guess_shape_witness :
    (evaluate_guess ['L', 'L', 'A', 'M', 'A'] ['A', 'B', 'A', 'T', 'E']).letters.length
        = WORD_LENGTH ∧
    ∀ i (h : i < (evaluate_guess ['L', 'L', 'A', 'M', 'A']
        ['A', 'B', 'A', 'T', 'E']).letters.length)
      (hi : i < (['L', 'L', 'A', 'M', 'A'] : List Char).length),
      ((evaluate_guess ['L', 'L', 'A', 'M', 'A']
          ['A', 'B', 'A', 'T', 'E']).letters.get ⟨i, h⟩).1 =
        (['L', 'L', 'A', 'M', 'A'] : List Char).get ⟨i, hi⟩ :=
  evaluate_guess_shape ['L', 'L', 'A', 'M', 'A'] ['A', 'B', 'A', 'T', 'E'] rfl rfl

/-- Pass 1 classifies every position `Correct` or `Absent`, never `Present`. -/
theorem zipWith_outf_mem : ∀ (g s : List Char) (r : LetterOutcome),
    r ∈ g.zipWith outf s → r = LetterOutcome.Correct ∨ r = LetterOutcome.Absent
  | [], _, _, h => absurd h (by simp)
  | _ :: _, [], _, h => absurd h (by simp)
  | a :: g', b :: s', r, h => by
    rw [List.zipWith_cons_cons] at h
    rcases List.mem_cons.mp h with h | h
    · subst h
      unfold outf
      by_cases hab : a = b
      · rw [if_pos hab]
        exact Or.inl rfl
      · rw [if_neg hab]
        exact Or.inr rfl
    · exact zipWith_outf_mem g' s' r h

/-- The base counts after pass 1: `Correct` marks are the exact matches,
the not-yet-marked guess positions and unaccounted solution positions of a
letter are its total counts minus the exact matches. -/
theorem init_counts (l : Char) : ∀ (g s : List Char), g.length = s.length →
    cntLO l LetterOutcome.Correct (g.zip (g.zipWith outf s)) = countExact l g s ∧
    ncCnt l g (g.zipWith outf s) = g.count l - countExact l g s ∧
    countExact l g s ≤ g.count l ∧
    unacc l (g.zipWith eqd s) s = s.count l - countExact l g s ∧
    countExact l g s ≤ s.count l
  | [], s, hl => by
    cases s
    · simp [cntLO, ncCnt, unacc, countExact]
    · simp at hl
  | a :: g', s, hl => by
    cases s with
    | nil => simp at hl
    | cons b s' =>
      obtain ⟨i1, i2, i3, i4, i5⟩ := init_counts l g' s' (by simpa using hl)
      simp only [List.zipWith_cons_cons, List.zip_cons_cons, cntLO_cons,
        ncCnt_cons, countExact_cons, unacc_cons, List.count_cons]
      by_cases hab : a = b
      · subst hab
        by_cases hal : a = l <;>
          simp [outf, eqd, hal, @eq_comm _ l] <;> omega
      · by_cases hal : a = l <;> by_cases hbl : b = l <;>
          simp [outf, eqd, hab, hal, hbl, @eq_comm _ l] <;> omega

/-- Every pair of an outcome is counted in exactly one of the three
classification buckets. -/
theorem cntLO_partition (l : Char) : ∀ (ps : List (Char × LetterOutcome)),
    cntLO l LetterOutcome.Correct ps + cntLO l LetterOutcome.Present ps +
      cntLO l LetterOutcome.Absent ps =
      (ps.filter (fun p => decide (p.1 = l))).length
  | [] => rfl
  | p :: ps => by
    rcases p with ⟨a, b⟩
    have ih := cntLO_partition l ps
    rw [cntLO_cons, cntLO_cons, cntLO_cons, List.filter_cons]
    cases b <;> by_cases hal : a = l <;> simp [hal] <;> omega

/-- Counting a letter among the first components of a zip is counting it in
the left list (when the right list is long enough). -/
theorem zip_fst_count (l : Char) : ∀ (g : List Char) (r : List LetterOutcome),
    g.length ≤ r.length →
    ((g.zip r).filter (fun p => decide (p.1 = l))).length = g.count l
  | [], r, _ => by simp
  | a :: g', [], h => by simp at h
  | a :: g', b :: r', h => by
    rw [List.zip_cons_cons, List.filter_cons, List.count_cons]
    have ih := zip_fst_count l g' r' (by simpa using h)
    by_cases hal : a = l
    · simp [hal, ih]
    · have hla : ¬ l = a := fun hx => hal hx.symm
      simp [hal, hla, ih]

/-- C3: for `WORD_LENGTH`-letter words, if the guess contains `k` copies of
letter `l` and the solution `m < k` copies, then exactly `m` of the guess's
`l`-positions are classified `Correct` or `Present` combined and the other
`k - m` are `Absent`; the `Correct` marks are exactly the exact-position
matches (they consume solution occurrences first) and the `Present` marks
are the remaining `m - #exact` occurrences (the left-to-right scan of pass 2
assigns them; within one letter the scan order is not observable in the
outcome, only these counts are). -/
theorem evaluate_guess_duplicate_law (g s : List Char) (l : Char)
    (hg : g.length = WORD_LENGTH) (hs : s.length = WORD_LENGTH)
    (hkm : s.count l < g.count l) :
    cntLO l LetterOutcome.Correct ((evaluate_guess g s).letters) +
      cntLO l LetterOutcome.Present ((evaluate_guess g s).letters) = s.count l ∧
    cntLO l LetterOutcome.Absent ((evaluate_guess g s).letters) =
      g.count l - s.count l ∧
    cntLO l LetterOutcome.Correct ((evaluate_guess g s).letters) =
      countExact l g s ∧
    cntLO l LetterOutcome.Present ((evaluate_guess g s).letters) =
      s.count l - countExact l g s := by
  have hl : g.length = s.length := by rw [hg, hs]
  rw [evaluate_guess_letters_eq g s hg hs]
  obtain ⟨i1, i2, i3, i4, i5⟩ := init_counts l g s hl
  have hmem : ∀ r ∈ g.zipWith outf s,
      r = LetterOutcome.Correct ∨ r = LetterOutcome.Absent :=
    fun r hr => zipWith_outf_mem g s r hr
  obtain ⟨hP, hC⟩ := pass2_counts l g (g.zipWith outf s) (g.zipWith eqd s) s hmem
  have htot := cntLO_partition l
    (g.zip (pass2 (g.zipWith outf s) g (g.zipWith eqd s) s))
  have hfst := zip_fst_count l g (pass2 (g.zipWith outf s) g (g.zipWith eqd s) s)
    (by rw [pass2_length, List.length_zipWith]; omega)
  rw [hfst] at htot
  rw [i1] at hC
  rw [i2, i4] at hP
  have hmin : min (g.count l - countExact l g s) (s.count l - countExact l g s) =
      s.count l - countExact l g s := by omega
  rw [hmin] at hP
  refine ⟨by omega, by omega, hC, hP⟩

/-- C3 witness: guess `"LLAMA"` (two `A`s) against solution `"BOOST"`
(zero `A`s): no `A`-position is `Correct` or `Present`, both are `Absent`. -/
theorem evaluate_guess_duplicate_law_witness :
    cntLO 'A' LetterOutcome.Correct
        ((evaluate_guess ['L', 'L', 'A', 'M', 'A'] ['B', 'O', 'O', 'S', 'T']).letters) +
      cntLO 'A' LetterOutcome.Present
        ((evaluate_guess ['L', 'L', 'A', 'M', 'A'] ['B', 'O', 'O', 'S', 'T']).letters) =
      (['B', 'O', 'O', 'S', 'T'] : List Char).count 'A' ∧
    cntLO 'A' LetterOutcome.Absent
        ((evaluate_guess ['L', 'L', 'A', 'M', 'A'] ['B', 'O', 'O', 'S', 'T']).letters) =
      (['L', 'L', 'A', 'M', 'A'] : List Char).count 'A' -
        (['B', 'O', 'O', 'S', 'T'] : List Char).count 'A' ∧
    cntLO 'A' LetterOutcome.Correct
        ((evaluate_guess ['L', 'L', 'A', 'M', 'A'] ['B', 'O', 'O', 'S', 'T']).letters) =
      countExact 'A' ['L', 'L', 'A', 'M', 'A'] ['B', 'O', 'O', 'S', 'T'] ∧
    cntLO 'A' LetterOutcome.Present
        ((evaluate_guess ['L', 'L', 'A', 'M', 'A'] ['B', 'O', 'O', 'S', 'T']).letters) =
      (['B', 'O', 'O', 'S', 'T'] : List Char).count 'A' -
        countExact 'A' ['L', 'L', 'A', 'M', 'A'] ['B', 'O', 'O', 'S', 'T'] :=
  evaluate_guess_duplicate_law ['L', 'L', 'A', 'M', 'A'] ['B', 'O', 'O', 'S', 'T'] 'A'
    rfl rfl (by decide)
